import Mathlib

/-!
Verification of the homography geometry module of the SuperPoint repository
(`superpoint/models/utils.py`).

The source manipulates floating-point tensors; this development embeds the
same computations over exact rationals `ℚ`.  A flattened homography of shape
`[1, 8]` becomes a vector `Fin 8 → ℚ` (the batch dimension of the source is
always 1 and is dropped), a `3×3` homography matrix becomes
`Matrix (Fin 3) (Fin 3) ℚ`, and a quadrilateral of 4 corner points becomes
`Fin 4 → Fin 2 → ℚ` (coordinate 0 is x, coordinate 1 is y, matching the
source's `[x, y]` point layout after the `shape[::-1]` reversal).

Division by zero follows Lean's `ℚ` convention `q / 0 = 0`; the source's
floating-point division by zero would instead produce non-finite values.
Both behaviours agree on the key point checked here: neither signals an
error.
-/

namespace SuperPoint

open Matrix

/-- Flattened homography: the `[1, 8]` tensor of the source with the batch
dimension dropped. -/
abbrev FlatH := Fin 8 → ℚ

/-- A quadrilateral: 4 points of 2 coordinates, as the `[4, 2]` tensors
`pts1` / `pts2` of `sample_homography`. -/
abbrev Quad := Fin 4 → Fin 2 → ℚ

/-- Source `flat2mat` (utils.py lines 163-168): append a trailing 1 to the 8
parameters and reshape row-major into a `3×3` matrix. -/
def flat2mat (h : FlatH) : Matrix (Fin 3) (Fin 3) ℚ :=
  Matrix.of ![![h 0, h 1, h 2], ![h 3, h 4, h 5], ![h 6, h 7, 1]]

/-- Source `mat2flat` (utils.py lines 171-177): reshape to 9 entries, divide
all of them by the 9th entry `H[2][2]`, and keep the first 8.  There is no
zero check in the source; with `H 2 2 = 0` the division is performed anyway. -/
def mat2flat (H : Matrix (Fin 3) (Fin 3) ℚ) : FlatH :=
  ![H 0 0 / H 2 2, H 0 1 / H 2 2, H 0 2 / H 2 2,
    H 1 0 / H 2 2, H 1 1 / H 2 2, H 1 2 / H 2 2,
    H 2 0 / H 2 2, H 2 1 / H 2 2]

/-- Determinant of a `3×3` matrix by cofactor expansion (the quantity
inverted by the solver behind `tf.matrix_inverse`). -/
def det3 (M : Matrix (Fin 3) (Fin 3) ℚ) : ℚ :=
  M 0 0 * (M 1 1 * M 2 2 - M 1 2 * M 2 1)
    - M 0 1 * (M 1 0 * M 2 2 - M 1 2 * M 2 0)
    + M 0 2 * (M 1 0 * M 2 1 - M 1 1 * M 2 0)

/-- Exact `3×3` matrix inverse by the adjugate formula, the semantics of the
`tf.matrix_inverse` call in `invert_homography` (utils.py line 160). -/
def inv3 (M : Matrix (Fin 3) (Fin 3) ℚ) : Matrix (Fin 3) (Fin 3) ℚ :=
  Matrix.of
    ![![(M 1 1 * M 2 2 - M 1 2 * M 2 1) / det3 M,
        (M 0 2 * M 2 1 - M 0 1 * M 2 2) / det3 M,
        (M 0 1 * M 1 2 - M 0 2 * M 1 1) / det3 M],
      ![(M 1 2 * M 2 0 - M 1 0 * M 2 2) / det3 M,
        (M 0 0 * M 2 2 - M 0 2 * M 2 0) / det3 M,
        (M 0 2 * M 1 0 - M 0 0 * M 1 2) / det3 M],
      ![(M 1 0 * M 2 1 - M 1 1 * M 2 0) / det3 M,
        (M 0 1 * M 2 0 - M 0 0 * M 2 1) / det3 M,
        (M 0 0 * M 1 1 - M 0 1 * M 1 0) / det3 M]]

/-- Source `invert_homography` (utils.py lines 156-160): matrix form,
`3×3` inverse, back to flattened form. -/
def invert_homography (h : FlatH) : FlatH :=
  mat2flat (inv3 (flat2mat h))

/-- Error kinds named by the specification (§7).  The source itself defines
no such errors; these are used only by the spec-modelled checked variants. -/
inductive GeomError where
  | degenerateHomography : GeomError
  | invalidShape : GeomError
deriving DecidableEq

/-- Modelled from the spec (§4.2 `matrix_to_flatten`): the checked
conversion the specification describes, signalling `DegenerateHomography`
when the normalizing entry is zero.  The source's `mat2flat` has no such
check; this definition exists to be compared against it. -/
def matrix_to_flatten (M : Matrix (Fin 3) (Fin 3) ℚ) :
    Except GeomError FlatH :=
  if M 2 2 = 0 then .error .degenerateHomography else .ok (mat2flat M)

/- ### Helper lemmas on the conversions -/

/-- Round trip: appending the trailing 1 and then normalizing by it is the
identity (the 9th entry is exactly 1, so every division is by 1). -/
lemma mat2flat_flat2mat (h : FlatH) : mat2flat (flat2mat h) = h := by
  funext i
  fin_cases i <;> simp [mat2flat, flat2mat] <;> rfl

/-- `mat2flat` ignores a global nonzero scaling of the matrix: every entry
is divided by the (equally scaled) ninth entry. -/
lemma mat2flat_smul (c : ℚ) (hc : c ≠ 0) (M : Matrix (Fin 3) (Fin 3) ℚ) :
    mat2flat (c • M) = mat2flat M := by
  funext i
  fin_cases i <;>
    simp only [mat2flat, Matrix.smul_apply, smul_eq_mul, Matrix.cons_val_zero,
      Matrix.cons_val_one, Matrix.head_cons, Matrix.cons_val_succ] <;>
    exact mul_div_mul_left _ _ hc

lemma det3_eq_det (M : Matrix (Fin 3) (Fin 3) ℚ) : det3 M = M.det := by
  rw [Matrix.det_fin_three]; unfold det3; ring

/-- The explicit cofactor inverse is a two-sided inverse when the
determinant is nonzero. -/
lemma inv3_mul_self (M : Matrix (Fin 3) (Fin 3) ℚ) (hd : det3 M ≠ 0) :
    inv3 M * M = 1 ∧ M * inv3 M = 1 := by
  have hd2 : M 0 0 * (M 1 1 * M 2 2 - M 1 2 * M 2 1)
      - M 0 1 * (M 1 0 * M 2 2 - M 1 2 * M 2 0)
      + M 0 2 * (M 1 0 * M 2 1 - M 1 1 * M 2 0) ≠ 0 := hd
  constructor <;>
    · ext i j
      fin_cases i <;> fin_cases j <;>
        · simp +decide [inv3, det3, Matrix.mul_apply, Fin.sum_univ_succ,
            Matrix.one_apply]
          field_simp
          ring

/-- Uniqueness: any right inverse of a matrix with nonzero determinant is
its cofactor inverse. -/
lemma inv3_unique (M B : Matrix (Fin 3) (Fin 3) ℚ) (hd : det3 M ≠ 0)
    (hB : M * B = 1) : inv3 M = B := by
  have h1 := (inv3_mul_self M hd).1
  calc inv3 M = inv3 M * (M * B) := by rw [hB, mul_one]
    _ = (inv3 M * M) * B := by rw [mul_assoc]
    _ = B := by rw [h1, one_mul]

/- ### The homography sampler (utils.py lines 72-153)

Randomness is embedded as explicit inputs.  Each `tf.truncated_normal` /
`tf.random_uniform` draw becomes a field of `Rand`; `tf.random_shuffle`
followed by `[0]` (which picks one element of the valid candidate list)
becomes an arbitrary index `iScale` / `iRot` reduced modulo the list
length.  The rotation stage applies `tf.cos` / `tf.sin` to the sampled
angles; since those are transcendental, the pair
`(cos angle_k, sin angle_k)` is supplied by the oracle field `trig k`,
while the angle values themselves (rational multiples of π) are embedded
exactly by `anglesPi`.  A `tf.random_uniform` draw on `[lo, hi)` is
embedded as `lo + u * (hi - lo)` with `0 ≤ u < 1`. -/

/-- The keyword configuration of `sample_homography` (utils.py lines 72-74). -/
structure Config where
  perspective : Bool
  scaling : Bool
  rotation : Bool
  translation : Bool
  nScales : ℕ
  nAngles : ℕ

/-- The default configuration: all perturbations on, 10 scales, 10 angles. -/
def cfgDefault : Config := ⟨true, true, true, true, 10, 10⟩

/-- All four perturbation stages disabled. -/
def cfgOff : Config := ⟨false, false, false, false, 10, 10⟩

/-- One run's worth of random draws (see module comment above). -/
structure Rand where
  eta : Fin 4 → Fin 2 → ℚ
  scaleDraw : ℕ → ℚ
  iScale : ℕ
  trig : ℕ → ℚ × ℚ
  iRot : ℕ
  u : Fin 2 → ℚ

/-- Corners of the output image (utils.py line 98). -/
def pts1Init : Quad := ![![0, 0], ![0, 1], ![1, 1], ![1, 0]]

/-- Corners of the input patch: the half-size centered square
`0.25 + [[0,0],[0,0.5],[0.5,0.5],[0.5,0]]` (utils.py line 100). -/
def pts2Init : Quad :=
  fun i j => 1 / 4 + (![![0, 0], ![0, 1 / 2], ![1 / 2, 1 / 2], ![1 / 2, 0]] : Quad) i j

/-- The border test of the scaling and rotation stages (utils.py lines
113-114 and 128-129): all 4 corners within `[0, 1)` on both axes. -/
def inUnitB (q : Quad) : Bool :=
  decide (∀ i : Fin 4, ∀ j : Fin 2, 0 ≤ q i j ∧ q i j < 1)

/-- `tf.reduce_mean(pts2, axis=0)`: the centroid of the quadrilateral. -/
def centroid (q : Quad) (j : Fin 2) : ℚ :=
  (q 0 j + q 1 j + q 2 j + q 3 j) / 4

/-- One scaled candidate: `(pts2 - center) * s + center` (utils.py
lines 110-112). -/
def scaleCand (q : Quad) (s : ℚ) : Quad :=
  fun i j => (q i j - centroid q j) * s + centroid q j

/-- The candidate scales: the guaranteed identity scale `1.` concatenated
with `n_scales` truncated-normal draws (utils.py line 109). -/
def scalesList (cfg : Config) (r : Rand) : List ℚ :=
  1 :: (List.range cfg.nScales).map r.scaleDraw

/-- Filter the candidate quadrilaterals by the border test and pick one of
the survivors (`tf.where` + `tf.random_shuffle(valid)[0]`).  The source
crashes on an empty survivor list (indexing an empty tensor); this is
embedded as `none`. -/
def pickValid (cands : List Quad) (k : ℕ) : Option Quad :=
  (cands.filter inUnitB).get? (k % (cands.filter inUnitB).length)

/-- The scaling stage (utils.py lines 108-116). -/
def scalingStage (cfg : Config) (r : Rand) (q : Quad) : Option Quad :=
  pickValid ((scalesList cfg r).map (scaleCand q)) r.iScale

/-- The values produced by `tf.lin_space(0., 2 * pi, n_angles)` (utils.py
line 121), expressed in units of π: `n` evenly spaced values from `0` to
`2π` with BOTH endpoints included, i.e. `anglesPi n k = 2k/(n-1)` (in π
units), for `k = 0, …, n-1`. -/
def anglesPi (n : ℕ) (k : ℕ) : ℚ :=
  (2 * k) / ((n : ℚ) - 1)

/-- One rotated candidate: `(pts2 - center) @ [[cos, -sin], [sin, cos]]
+ center` (utils.py lines 122-127), with the cosine/sine pair supplied by
the trig oracle. -/
def rotCand (q : Quad) (cs : ℚ × ℚ) : Quad :=
  fun i =>
    ![(q i 0 - centroid q 0) * cs.1 + (q i 1 - centroid q 1) * cs.2 + centroid q 0,
      -((q i 0 - centroid q 0) * cs.2) + (q i 1 - centroid q 1) * cs.1 + centroid q 1]

/-- The rotation stage (utils.py lines 120-131): `n_angles` rotated
candidates, border filter, random pick among the survivors. -/
def rotationStage (cfg : Config) (r : Rand) (q : Quad) : Option Quad :=
  pickValid ((List.range cfg.nAngles).map (fun k => rotCand q (r.trig k))) r.iRot

/-- `t_min` of the translation stage: `tf.reduce_min(pts2, axis=0)`
(utils.py line 135). -/
def transMin (q : Quad) (j : Fin 2) : ℚ :=
  min (min (q 0 j) (q 1 j)) (min (q 2 j) (q 3 j))

/-- `t_max` of the translation stage: `tf.reduce_min(1 - pts2, axis=0)`
(utils.py line 135). -/
def transMax (q : Quad) (j : Fin 2) : ℚ :=
  min (min (1 - q 0 j) (1 - q 1 j)) (min (1 - q 2 j) (1 - q 3 j))

/-- The translation stage (utils.py lines 134-138): shift all corners by a
uniform draw from `[-t_min, t_max)` per axis, embedded as
`-t_min + u * (t_max + t_min)` with `0 ≤ u < 1`. -/
def translationStage (r : Rand) (q : Quad) : Quad :=
  fun i j => q i j + (-(transMin q j) + r.u j * (transMax q j + transMin q j))

/-- The perspective stage (utils.py lines 103-104): add truncated-normal
noise (std `0.25/2`, hence bounded by `±0.25` after the 2σ truncation)
to every coordinate. -/
def perspOut (cfg : Config) (r : Rand) : Quad :=
  if cfg.perspective then (fun i j => pts2Init i j + r.eta i j) else pts2Init

/-- The patch quadrilateral after the (optional) scaling stage. -/
def afterScale (cfg : Config) (r : Rand) : Option Quad :=
  if cfg.scaling then scalingStage cfg r (perspOut cfg r) else some (perspOut cfg r)

/-- The patch quadrilateral after the (optional) rotation stage. -/
def afterRot (cfg : Config) (r : Rand) : Option Quad :=
  (afterScale cfg r).bind
    (fun q => if cfg.rotation then rotationStage cfg r q else some q)

/-- The patch quadrilateral after the (optional) translation stage. -/
def afterTrans (cfg : Config) (r : Rand) : Option Quad :=
  (afterRot cfg r).map (fun q => if cfg.translation then translationStage r q else q)

/-- Rescaling to actual size (utils.py lines 141-143): `shape` is
`(height, width)`; after the `shape[::-1]` reversal the x coordinate is
multiplied by the width and the y coordinate by the height. -/
def rescalePt (shape : ℚ × ℚ) (q : Quad) : Quad :=
  fun i j => q i j * (![shape.2, shape.1] j)

/-- The two final (rescaled) quadrilaterals `pts1`, `pts2` of a
`sample_homography` run, `none` when a rejection filter left no candidate. -/
def samplePts (shape : ℚ × ℚ) (cfg : Config) (r : Rand) : Option (Quad × Quad) :=
  (afterTrans cfg r).map (fun q => (rescalePt shape pts1Init, rescalePt shape q))

/-- Row `ax` of the correspondence system (utils.py line 145). -/
def axRow (p q : Fin 2 → ℚ) : Fin 8 → ℚ :=
  ![p 0, p 1, 1, 0, 0, 0, -(p 0) * q 0, -(p 1) * q 0]

/-- Row `ay` of the correspondence system (utils.py line 147). -/
def ayRow (p q : Fin 2 → ℚ) : Fin 8 → ℚ :=
  ![0, 0, 0, p 0, p 1, 1, -(p 0) * q 1, -(p 1) * q 1]

/-- The `8×8` coefficient matrix `a_mat` (utils.py line 149): rows
`ax(pts1[i], pts2[i])`, `ay(pts1[i], pts2[i])` interleaved for `i = 0..3`. -/
def aMat (p1 p2 : Quad) : Matrix (Fin 8) (Fin 8) ℚ :=
  Matrix.of
    ![axRow (p1 0) (p2 0), ayRow (p1 0) (p2 0),
      axRow (p1 1) (p2 1), ayRow (p1 1) (p2 1),
      axRow (p1 2) (p2 2), ayRow (p1 2) (p2 2),
      axRow (p1 3) (p2 3), ayRow (p1 3) (p2 3)]

/-- The target vector `p_mat` (utils.py lines 150-151):
`[pts2[i][j] for i in range(4) for j in range(2)]`. -/
def pVec (p2 : Quad) : Fin 8 → ℚ :=
  ![p2 0 0, p2 0 1, p2 1 0, p2 1 1, p2 2 0, p2 2 1, p2 3 0, p2 3 1]

section NormalEquations

variable {K : Type} [CommRing K]

/-- The Gram matrix `AᵀA` of the normal equations solved by
`tf.matrix_solve_ls(…, fast=True)`. -/
def gram (A : Matrix (Fin 8) (Fin 8) K) : Matrix (Fin 8) (Fin 8) K := Aᵀ * A

/-- Determinant of the Gram matrix. -/
def gramDet (A : Matrix (Fin 8) (Fin 8) K) : K := (gram A).det

/-- The Cramer numerators of the normal-equation system `(AᵀA) x = Aᵀ b`. -/
def gramCramer (A : Matrix (Fin 8) (Fin 8) K) (b : Fin 8 → K) : Fin 8 → K :=
  Matrix.cramer (gram A) (Aᵀ *ᵥ b)

/-- The normal-equation solution scaled by an inverse `dinv` of the Gram
determinant (supplied by the caller, since a commutative ring has no
division). -/
def lsSol (A : Matrix (Fin 8) (Fin 8) K) (b : Fin 8 → K) (dinv : K) :
    Fin 8 → K :=
  dinv • gramCramer A b

/-- Squared euclidean norm of the residual `A x - b`, the quantity
minimized by a least-squares solution. -/
def residSq (A : Matrix (Fin 8) (Fin 8) K) (b x : Fin 8 → K) : K :=
  ∑ i, ((A *ᵥ x) i - b i) ^ 2

end NormalEquations

/-- `tf.matrix_solve_ls(a_mat, p_mat, fast=True)` (utils.py line 152): the
fast path solves the normal equations `(AᵀA) x = Aᵀ b` (zero
regularizer), here by Cramer's rule over `ℚ`.  When `AᵀA` is singular the
division is by zero (the source's Cholesky factorization fails there). -/
def solveLS (A : Matrix (Fin 8) (Fin 8) ℚ) (b : Fin 8 → ℚ) : Fin 8 → ℚ :=
  fun j => gramCramer A b j / gramDet A

/-- Source `sample_homography` (utils.py lines 72-153): run the
perturbation stages, rescale, build the correspondence system, and return
its least-squares solution as the flattened homography.  The source has no
validation of `shape` whatsoever. -/
def sample_homography (shape : ℚ × ℚ) (cfg : Config) (r : Rand) :
    Option FlatH :=
  (samplePts shape cfg r).map (fun pq => solveLS (aMat pq.1 pq.2) (pVec pq.2))

/- ### Determinant helper lemmas -/

lemma det3_eq_zero_iff (M : Matrix (Fin 3) (Fin 3) ℚ) : det3 M = M.det :=
  det3_eq_det M

lemma det3_one : det3 (1 : Matrix (Fin 3) (Fin 3) ℚ) = 1 := by
  rw [det3_eq_det, Matrix.det_one]

lemma det3_smul (c : ℚ) (M : Matrix (Fin 3) (Fin 3) ℚ) :
    det3 (c • M) = c ^ 3 * det3 M := by
  rw [det3_eq_det, det3_eq_det, Matrix.det_smul]
  norm_num

lemma det3_mul (M N : Matrix (Fin 3) (Fin 3) ℚ) :
    det3 (M * N) = det3 M * det3 N := by
  rw [det3_eq_det, det3_eq_det, det3_eq_det, Matrix.det_mul]

/- ### Claim theorems about the conversions -/

/-- C2: for every 8-element flattened homography `h`,
`mat2flat (flat2mat h)` equals `h` exactly: `flat2mat` appends a trailing 1
and reshapes to 3×3, and `mat2flat`'s division by the ninth entry is then a
division by exactly 1, so the round trip is the identity (no tolerance
needed — the arithmetic here is exact). -/
theorem mat2flat_flat2mat_roundtrip (h : FlatH) : mat2flat (flat2mat h) = h :=
  mat2flat_flat2mat h

/-- C10: `mat2flat` is scale invariant: for every 3×3 matrix `M` with
`M 2 2 ≠ 0` and every nonzero scalar `c`, `mat2flat (c • M) = mat2flat M`,
because all nine entries are divided by the (equally scaled) ninth before
the last is dropped. -/
theorem mat2flat_scale_invariant (M : Matrix (Fin 3) (Fin 3) ℚ) (c : ℚ)
    (hM : M 2 2 ≠ 0) (hc : c ≠ 0) : mat2flat (c • M) = mat2flat M :=
  mat2flat_smul c hc M

/-- Witness for C10 at a concrete matrix and scalar. -/
theorem mat2flat_scale_invariant_w :
    mat2flat ((3 : ℚ) • flat2mat ![2, 0, 0, 0, 1, 0, 0, 0])
      = mat2flat (flat2mat ![2, 0, 0, 0, 1, 0, 0, 0]) :=
  mat2flat_scale_invariant (flat2mat ![2, 0, 0, 0, 1, 0, 0, 0]) 3
    (by with_unfolding_all decide) (by with_unfolding_all decide)

/-- A matrix whose normalizing entry `[2][2]` is zero, used to exhibit
`mat2flat`'s behaviour there. -/
def m3zero : Matrix (Fin 3) (Fin 3) ℚ :=
  Matrix.of ![![1, 2, 3], ![4, 5, 6], ![7, 8, 0]]

/-- C3 counterexample: on a matrix with `[2][2] = 0` the source's
`mat2flat` does NOT signal an error — it performs the division by zero and
returns a plain 8-vector (all zeros under the exact-arithmetic convention
`q / 0 = 0`; IEEE floats would give non-finite values).  The checked
conversion demanded by the spec would return `DegenerateHomography`
instead. -/
theorem mat2flat_no_zero_check_cex :
    mat2flat m3zero = (fun _ => 0) ∧
      matrix_to_flatten m3zero = Except.error GeomError.degenerateHomography := by
  constructor
  · with_unfolding_all decide
  · have hz : m3zero 2 2 = 0 := by with_unfolding_all decide
    unfold matrix_to_flatten
    rw [if_pos hz]

/-- C3 amended: `mat2flat` performs the division unconditionally, with no
zero check; it agrees with the spec's checked `matrix_to_flatten` exactly
on every matrix whose normalizing entry is nonzero. -/
theorem matrix_to_flatten_agrees (M : Matrix (Fin 3) (Fin 3) ℚ)
    (hM : M 2 2 ≠ 0) : matrix_to_flatten M = Except.ok (mat2flat M) := by
  unfold matrix_to_flatten
  rw [if_neg hM]

/-- Witness for the amended C3 at a concrete nondegenerate matrix. -/
theorem matrix_to_flatten_agrees_w :
    matrix_to_flatten (flat2mat ![2, 0, 0, 0, 1, 0, 0, 0])
      = Except.ok (mat2flat (flat2mat ![2, 0, 0, 0, 1, 0, 0, 0])) :=
  matrix_to_flatten_agrees (flat2mat ![2, 0, 0, 0, 1, 0, 0, 0])
    (by with_unfolding_all decide)

/-- Re-appending a trailing 1 to a normalized matrix reconstructs the
matrix up to the (nonzero) normalization factor. -/
lemma flat2mat_mat2flat (N : Matrix (Fin 3) (Fin 3) ℚ) (hN : N 2 2 ≠ 0) :
    flat2mat (mat2flat N) = (N 2 2)⁻¹ • N := by
  funext i j
  fin_cases i <;> fin_cases j <;>
    simp [flat2mat, mat2flat, Matrix.smul_apply, smul_eq_mul,
      div_eq_inv_mul, inv_mul_cancel₀ hN] <;>
    rfl

/-- C6: `invert_homography` is an involution (exactly, over `ℚ`): for every
flattened homography whose 3×3 matrix form is invertible and whose inverse
has a nonzero normalizing entry, inverting twice gives back `h`. -/
theorem invert_homography_involution (h : FlatH)
    (h1 : det3 (flat2mat h) ≠ 0)
    (h2 : inv3 (flat2mat h) 2 2 ≠ 0) :
    invert_homography (invert_homography h) = h := by
  obtain ⟨hNM, hMN⟩ := inv3_mul_self (flat2mat h) h1
  have hdN : det3 (inv3 (flat2mat h)) ≠ 0 := by
    intro h0
    have hprod : det3 (flat2mat h) * det3 (inv3 (flat2mat h)) = 1 := by
      rw [← det3_mul, hMN, det3_one]
    rw [h0, mul_zero] at hprod
    exact zero_ne_one hprod
  have hB : flat2mat (mat2flat (inv3 (flat2mat h)))
      = (inv3 (flat2mat h) 2 2)⁻¹ • inv3 (flat2mat h) :=
    flat2mat_mat2flat (inv3 (flat2mat h)) h2
  have hscale : det3 ((inv3 (flat2mat h) 2 2)⁻¹ • inv3 (flat2mat h)) ≠ 0 := by
    rw [det3_smul]
    exact mul_ne_zero (pow_ne_zero 3 (inv_ne_zero h2)) hdN
  have hXY : ((inv3 (flat2mat h) 2 2)⁻¹ • inv3 (flat2mat h))
      * ((inv3 (flat2mat h) 2 2) • flat2mat h) = 1 := by
    rw [Matrix.smul_mul, Matrix.mul_smul, smul_smul, inv_mul_cancel₀ h2,
      one_smul, hNM]
  have hC : inv3 ((inv3 (flat2mat h) 2 2)⁻¹ • inv3 (flat2mat h))
      = (inv3 (flat2mat h) 2 2) • flat2mat h := inv3_unique _ _ hscale hXY
  calc invert_homography (invert_homography h)
      = mat2flat (inv3 (flat2mat (mat2flat (inv3 (flat2mat h))))) := rfl
    _ = mat2flat (inv3 ((inv3 (flat2mat h) 2 2)⁻¹ • inv3 (flat2mat h))) := by
        rw [hB]
    _ = mat2flat ((inv3 (flat2mat h) 2 2) • flat2mat h) := by rw [hC]
    _ = mat2flat (flat2mat h) := mat2flat_smul _ h2 (flat2mat h)
    _ = h := mat2flat_flat2mat h

/-- Witness for C6 at a concrete invertible homography. -/
theorem invert_homography_involution_w :
    invert_homography (invert_homography ![2, 0, 0, 0, 1, 0, 0, 0])
      = ![2, 0, 0, 0, 1, 0, 0, 0] :=
  invert_homography_involution ![2, 0, 0, 0, 1, 0, 0, 0]
    (by with_unfolding_all decide) (by with_unfolding_all decide)

/- ### Stage lemmas for the sampler -/

lemma inUnitB_iff (q : Quad) :
    inUnitB q = true ↔ ∀ i : Fin 4, ∀ j : Fin 2, 0 ≤ q i j ∧ q i j < 1 := by
  simp [inUnitB]

lemma pickValid_spec {cands : List Quad} {k : ℕ} {q : Quad}
    (h : pickValid cands k = some q) : q ∈ cands ∧ inUnitB q = true := by
  unfold pickValid at h
  have hm : q ∈ cands.filter inUnitB := List.get?_mem h
  exact ⟨(List.mem_filter.mp hm).1, (List.mem_filter.mp hm).2⟩

lemma pickValid_isSome {cands : List Quad} (k : ℕ) (c : Quad) (hc : c ∈ cands)
    (hvalid : inUnitB c = true) : (pickValid cands k).isSome = true := by
  unfold pickValid
  have hne : cands.filter inUnitB ≠ [] := by
    intro h0
    have hmem := List.mem_filter.mpr ⟨hc, hvalid⟩
    rw [h0] at hmem
    exact List.not_mem_nil _ hmem
  have hlen : 0 < (cands.filter inUnitB).length := List.length_pos.mpr hne
  rw [List.get?_eq_get (Nat.mod_lt _ hlen)]
  rfl

/-- The trivial run: zero perspective noise, all scale draws 1, trig oracle
at the zero angle, zero uniform draws, first valid candidate picked. -/
def rand0 : Rand := ⟨fun _ _ => 0, fun _ => 1, 0, fun _ => (1, 0), 0, fun _ => 0⟩

/- ### C7: the identity scale candidate -/

/-- C7 counterexample: perspective noise of exactly `+0.25` (the boundary
the 2σ truncation of `tf.truncated_normal` still admits) on corner 2 moves
it to `(1, 1)`.  The identity scale then FAILS the strict `< 1` border
filter, and with all other scale draws equal to 2 the valid candidate set
of the scaling stage is empty, so the stage — and the whole
`sample_homography` call — fails rather than picking a candidate. -/
def rand7 : Rand :=
  ⟨fun i _ => if i = 2 then 1 / 4 else 0, fun _ => 2, 0, fun _ => (1, 0), 0,
    fun _ => 0⟩

theorem scaling_stage_empty_cex :
    (∀ i : Fin 4, ∀ j : Fin 2, -(1 / 4 : ℚ) ≤ rand7.eta i j ∧ rand7.eta i j ≤ 1 / 4) ∧
      scalingStage cfgDefault rand7 (perspOut cfgDefault rand7) = none ∧
      sample_homography ((480 : ℚ), 640) cfgDefault rand7 = none :=
  ⟨by with_unfolding_all decide, by with_unfolding_all decide,
    by with_unfolding_all decide⟩

/-- C7 amended: the identity scale `1.` is always candidate index 0 of the
scaling stage, and whenever the incoming quadrilateral's coordinates all lie
in the half-open `[0, 1)` (strictly below 1 — which perspective noise at
the truncation boundary can violate) the identity candidate passes the
border filter, so the valid set is nonempty and the stage succeeds. -/
theorem scaling_identity_valid (r : Rand) (q : Quad)
    (hq : ∀ i : Fin 4, ∀ j : Fin 2, 0 ≤ q i j ∧ q i j < 1) :
    (scalesList cfgDefault r).get? 0 = some 1 ∧ scaleCand q 1 = q ∧
      (scalingStage cfgDefault r q).isSome = true := by
  have hid : scaleCand q 1 = q := by
    funext i j
    simp [scaleCand]
  refine ⟨rfl, hid, ?_⟩
  apply pickValid_isSome r.iScale (scaleCand q 1)
  · exact List.mem_map.mpr ⟨1, List.mem_cons_self _ _, rfl⟩
  · rw [hid]
    exact (inUnitB_iff q).mpr hq

/-- Witness for the amended C7 at the initial half-size square. -/
theorem scaling_identity_valid_w :
    (scalesList cfgDefault rand0).get? 0 = some 1 ∧
      scaleCand pts2Init 1 = pts2Init ∧
      (scalingStage cfgDefault rand0 pts2Init).isSome = true :=
  scaling_identity_valid rand0 pts2Init (by with_unfolding_all decide)

/- ### C8: the rotation stage -/

/-- C8 counterexample: the candidate angles are `tf.lin_space(0., 2π, 10)`,
which INCLUDES the right endpoint: the 10th angle (index 9) is exactly 2π
(coefficient 2 in units of π), which does not lie in the half-open interval
`[0, 2π)`; the spacing is `2π/9`, not `2π/10`. -/
theorem rotation_angles_endpoint_cex :
    anglesPi cfgDefault.nAngles 9 = 2 ∧ ¬ anglesPi cfgDefault.nAngles 9 < 2 := by
  constructor <;> norm_num [anglesPi, cfgDefault]

/-- C8 amended: the `n_angles = 10` candidate angles are evenly spaced over
the CLOSED interval `[0, 2π]` (`anglesPi` is in units of π): angle `k` is
`2πk/9`, including both endpoints 0 and 2π.  Each candidate quadrilateral
is `pts2` rotated about its centroid by the rotation matrix of one such
angle (its cosine/sine supplied by the trig oracle), candidates are
filtered to those keeping all 4 corners inside `[0,1)` on both axes, and
the stage's result is one of the surviving candidates. -/
theorem rotation_stage_behavior (r : Rand) (q q2 : Quad)
    (h : rotationStage cfgDefault r q = some q2) :
    (∀ k : ℕ, anglesPi cfgDefault.nAngles k = 2 * k / 9) ∧
      anglesPi cfgDefault.nAngles 0 = 0 ∧ anglesPi cfgDefault.nAngles 9 = 2 ∧
      ∃ k, k < cfgDefault.nAngles ∧ q2 = rotCand q (r.trig k) ∧
        ∀ i : Fin 4, ∀ j : Fin 2, 0 ≤ q2 i j ∧ q2 i j < 1 := by
  obtain ⟨hmem, hvalid⟩ := pickValid_spec h
  obtain ⟨k, hk, hkq⟩ := List.mem_map.mp hmem
  refine ⟨?_, ?_, ?_, k, List.mem_range.mp hk, hkq.symm,
    (inUnitB_iff q2).mp hvalid⟩
  · intro k2
    norm_num [anglesPi, cfgDefault]
  · norm_num [anglesPi, cfgDefault]
  · norm_num [anglesPi, cfgDefault]

/-- Witness for the amended C8 on a concrete successful rotation stage. -/
theorem rotation_stage_behavior_w :
    (∀ k : ℕ, anglesPi cfgDefault.nAngles k = 2 * k / 9) ∧
      anglesPi cfgDefault.nAngles 0 = 0 ∧ anglesPi cfgDefault.nAngles 9 = 2 ∧
      ∃ k, k < cfgDefault.nAngles ∧
        rotCand pts2Init (rand0.trig 0) = rotCand pts2Init (rand0.trig k) ∧
        ∀ i : Fin 4, ∀ j : Fin 2,
          0 ≤ rotCand pts2Init (rand0.trig 0) i j ∧
            rotCand pts2Init (rand0.trig 0) i j < 1 :=
  rotation_stage_behavior rand0 pts2Init (rotCand pts2Init (rand0.trig 0))
    (by with_unfolding_all decide)

/- ### C1: the final patch quadrilateral stays inside the image -/

lemma transMin_le (q : Quad) (j : Fin 2) (i : Fin 4) : transMin q j ≤ q i j := by
  have h01 : transMin q j ≤ min (q 0 j) (q 1 j) := min_le_left _ _
  have h23 : transMin q j ≤ min (q 2 j) (q 3 j) := min_le_right _ _
  fin_cases i
  · exact h01.trans (min_le_left _ _)
  · exact h01.trans (min_le_right _ _)
  · exact h23.trans (min_le_left _ _)
  · exact h23.trans (min_le_right _ _)

lemma transMax_le (q : Quad) (j : Fin 2) (i : Fin 4) : transMax q j ≤ 1 - q i j := by
  have h01 : transMax q j ≤ min (1 - q 0 j) (1 - q 1 j) := min_le_left _ _
  have h23 : transMax q j ≤ min (1 - q 2 j) (1 - q 3 j) := min_le_right _ _
  fin_cases i
  · exact h01.trans (min_le_left _ _)
  · exact h01.trans (min_le_right _ _)
  · exact h23.trans (min_le_left _ _)
  · exact h23.trans (min_le_right _ _)

/-- The translation stage maps a quadrilateral inside `[0,1)²` to a
quadrilateral inside `[0,1)²`, for any uniform draw parameters in `[0,1)`:
the drawn offset lies in `[-t_min, t_max)` by construction. -/
lemma translationStage_bounds (r : Rand) (q : Quad)
    (hq : ∀ i : Fin 4, ∀ j : Fin 2, 0 ≤ q i j ∧ q i j < 1)
    (hu : ∀ j : Fin 2, 0 ≤ r.u j ∧ r.u j < 1) :
    ∀ i : Fin 4, ∀ j : Fin 2,
      0 ≤ translationStage r q i j ∧ translationStage r q i j < 1 := by
  intro i j
  have h1 : transMin q j ≤ q i j := transMin_le q j i
  have h2 : transMax q j ≤ 1 - q i j := transMax_le q j i
  have h3 : 0 ≤ transMin q j :=
    le_min (le_min (hq 0 j).1 (hq 1 j).1) (le_min (hq 2 j).1 (hq 3 j).1)
  have h4 : 0 < transMax q j := by
    apply lt_min
    · apply lt_min
      · linarith [(hq 0 j).2]
      · linarith [(hq 1 j).2]
    · apply lt_min
      · linarith [(hq 2 j).2]
      · linarith [(hq 3 j).2]
  have hL : 0 < transMax q j + transMin q j := by linarith
  have h5 : 0 ≤ r.u j * (transMax q j + transMin q j) :=
    mul_nonneg (hu j).1 (le_of_lt hL)
  have h6 : r.u j * (transMax q j + transMin q j) < transMax q j + transMin q j :=
    mul_lt_of_lt_one_left hL (hu j).2
  unfold translationStage
  constructor <;> linarith

/-- Decompose a successful default-configuration run of the stage pipeline:
the result is the translated image of a rotation-stage survivor. -/
lemma afterTrans_default {r : Rand} {qt : Quad}
    (h : afterTrans cfgDefault r = some qt) :
    ∃ qr : Quad, inUnitB qr = true ∧ qt = translationStage r qr := by
  obtain ⟨qr, hqr, hq⟩ := Option.map_eq_some'.mp h
  obtain ⟨qs, _, hrot⟩ := Option.bind_eq_some.mp hqr
  simp only [cfgDefault, if_true] at hrot hq
  exact ⟨qr, (pickValid_spec hrot).2, hq.symm⟩

/-- C1: for every positive image shape and the default configuration, every
corner of the final (rescaled) patch quadrilateral `pts2` of a successful
`sample_homography` run has its x coordinate in `[0, width)` and its y
coordinate in `[0, height)`. -/
theorem patch_corners_in_bounds (hgt wdt : ℚ) (r : Rand) (p1 p2 : Quad)
    (hh : 0 < hgt) (hw : 0 < wdt)
    (hu : ∀ j : Fin 2, 0 ≤ r.u j ∧ r.u j < 1)
    (hs : samplePts (hgt, wdt) cfgDefault r = some (p1, p2)) :
    ∀ i : Fin 4, (0 ≤ p2 i 0 ∧ p2 i 0 < wdt) ∧ (0 ≤ p2 i 1 ∧ p2 i 1 < hgt) := by
  obtain ⟨qt, hqt, hpair⟩ := Option.map_eq_some'.mp hs
  obtain ⟨qr, hvalid, htr⟩ := afterTrans_default hqt
  have hqb : ∀ i : Fin 4, ∀ j : Fin 2, 0 ≤ qt i j ∧ qt i j < 1 := by
    rw [htr]
    exact translationStage_bounds r qr ((inUnitB_iff qr).mp hvalid) hu
  have hp2 : p2 = rescalePt (hgt, wdt) qt := (Prod.mk.injEq _ _ _ _ |>.mp hpair).2.symm
  intro i
  have hx := hqb i 0
  have hy := hqb i 1
  have hpx : p2 i 0 = qt i 0 * wdt := by
    rw [hp2]
    simp [rescalePt]
  have hpy : p2 i 1 = qt i 1 * hgt := by
    rw [hp2]
    simp [rescalePt]
  rw [hpx, hpy]
  exact ⟨⟨mul_nonneg hx.1 (le_of_lt hw), mul_lt_of_lt_one_left hw hx.2⟩,
    ⟨mul_nonneg hy.1 (le_of_lt hh), mul_lt_of_lt_one_left hh hy.2⟩⟩

/-- The patch quadrilateral produced (before rescaling) by the trivial run
`rand0` under the default configuration. -/
def wpatch : Quad :=
  translationStage rand0
    (rotCand (scaleCand (perspOut cfgDefault rand0) 1) (rand0.trig 0))

/-- Witness for C1: the trivial run at shape `(1, 1)`, corner 2. -/
theorem patch_corners_in_bounds_w :
    (0 ≤ rescalePt ((1 : ℚ), 1) wpatch 2 0 ∧
      rescalePt ((1 : ℚ), 1) wpatch 2 0 < 1) ∧
    (0 ≤ rescalePt ((1 : ℚ), 1) wpatch 2 1 ∧
      rescalePt ((1 : ℚ), 1) wpatch 2 1 < 1) :=
  patch_corners_in_bounds 1 1 rand0 (rescalePt ((1 : ℚ), 1) pts1Init)
    (rescalePt ((1 : ℚ), 1) wpatch) (by norm_num) (by norm_num)
    (by with_unfolding_all decide) (by with_unfolding_all decide) 2

/- ### C4: no shape validation -/

section NormalEquationsLemmas

variable {K : Type} [CommRing K]

/-- A matrix with a one-sided inverse has a Gram matrix with nonzero
determinant (the inverse of the Gram matrix is exhibited explicitly, so no
factorization of the determinant of a transpose is needed). -/
lemma gramDet_ne_zero {A B : Matrix (Fin 8) (Fin 8) K} (hB : B * A = 1)
    (h1 : (1 : K) ≠ 0) : gramDet A ≠ 0 := by
  have hAB : A * B = 1 := Matrix.mul_eq_one_comm.mp hB
  have hT : Aᵀ * Bᵀ = 1 := by
    rw [← Matrix.transpose_mul, hB, Matrix.transpose_one]
  have hGC : gram A * (B * Bᵀ) = 1 := by
    show Aᵀ * A * (B * Bᵀ) = 1
    rw [Matrix.mul_assoc, ← Matrix.mul_assoc A B Bᵀ, hAB, Matrix.one_mul]
    exact hT
  intro h0
  have hd := congrArg Matrix.det hGC
  rw [Matrix.det_mul, Matrix.det_one,
    show (gram A).det = gramDet A from rfl, h0, zero_mul] at hd
  exact h1 hd.symm

/-- The scaled Cramer vector satisfies the normal equations whenever `dinv`
inverts the Gram determinant. -/
lemma lsSol_normal (A : Matrix (Fin 8) (Fin 8) K) (b : Fin 8 → K) (dinv : K)
    (hd : dinv * gramDet A = 1) : gram A *ᵥ lsSol A b dinv = Aᵀ *ᵥ b := by
  unfold lsSol gramCramer
  rw [Matrix.mulVec_smul, Matrix.mulVec_cramer, smul_smul,
    show dinv * (gram A).det = 1 from hd, one_smul]

/-- Multiplication by the Gram matrix is cancellable up to the Gram
determinant (via the adjugate). -/
lemma gram_cancel {A : Matrix (Fin 8) (Fin 8) K} {x y : Fin 8 → K}
    (hxy : gram A *ᵥ x = gram A *ᵥ y) : gramDet A • x = gramDet A • y := by
  have h3 : ((gram A).adjugate * gram A) *ᵥ x
      = ((gram A).adjugate * gram A) *ᵥ y := by
    rw [← Matrix.mulVec_mulVec, ← Matrix.mulVec_mulVec, hxy]
  rw [Matrix.adjugate_mul, Matrix.smul_mulVec_assoc, Matrix.smul_mulVec_assoc,
    Matrix.one_mulVec, Matrix.one_mulVec] at h3
  exact h3

/-- If `x0` solves the system exactly, the normal-equation solution is
`x0` (given cancellability of the Gram determinant). -/
lemma ls_unique {A : Matrix (Fin 8) (Fin 8) K} {b x0 : Fin 8 → K} {dinv : K}
    (hd : dinv * gramDet A = 1)
    (hsol : A *ᵥ x0 = b)
    (hcanc : ∀ u w : K, gramDet A * u = gramDet A * w → u = w) :
    lsSol A b dinv = x0 := by
  have h1 : gram A *ᵥ lsSol A b dinv = Aᵀ *ᵥ b := lsSol_normal A b dinv hd
  have h2 : gram A *ᵥ x0 = Aᵀ *ᵥ b := by
    unfold gram
    rw [← Matrix.mulVec_mulVec, hsol]
  have h3 := gram_cancel (h1.trans h2.symm)
  funext k
  have h4 := congrFun h3 k
  simp only [Pi.smul_apply, smul_eq_mul] at h4
  exact hcanc _ _ h4

/-- Orthogonal decomposition of the squared residual: any candidate's
residual is the normal-equation solution's residual plus a sum of squares.
This is the exact algebraic content of least-squares optimality. -/
lemma ls_decomp {A : Matrix (Fin 8) (Fin 8) K} {b : Fin 8 → K} {dinv : K}
    (hd : dinv * gramDet A = 1) (x : Fin 8 → K) :
    residSq A b x = residSq A b (lsSol A b dinv)
      + ∑ i, ((A *ᵥ (fun k => x k - lsSol A b dinv k)) i) ^ 2 := by
  set v := lsSol A b dinv with hv
  set d : Fin 8 → K := fun k => x k - v k with hdref
  set w := A *ᵥ v with hw
  have hN : gram A *ᵥ v = Aᵀ *ᵥ b := lsSol_normal A b dinv hd
  have horth : ∀ j, (∑ i, A i j * (w i - b i)) = 0 := by
    intro j
    have h1 : (Aᵀ *ᵥ w) j = (Aᵀ *ᵥ b) j := by
      rw [hw, Matrix.mulVec_mulVec]
      exact congrFun hN j
    simp only [Matrix.mulVec, Matrix.dotProduct, Matrix.transpose_apply] at h1
    calc ∑ i, A i j * (w i - b i)
        = (∑ i, A i j * w i) - ∑ i, A i j * b i := by
          rw [← Finset.sum_sub_distrib]
          exact Finset.sum_congr rfl (fun i _ => by ring)
      _ = 0 := by rw [h1, sub_self]
  have hAd : ∀ i, (A *ᵥ x) i = w i + (A *ᵥ d) i := by
    intro i
    rw [hw]
    simp only [Matrix.mulVec, Matrix.dotProduct, hdref]
    rw [← Finset.sum_add_distrib]
    exact Finset.sum_congr rfl (fun k _ => by ring)
  have hcross : ∑ i, (w i - b i) * (A *ᵥ d) i = 0 := by
    calc ∑ i, (w i - b i) * (A *ᵥ d) i
        = ∑ i, ∑ k, (w i - b i) * (A i k * d k) := by
          refine Finset.sum_congr rfl (fun i _ => ?_)
          rw [Matrix.mulVec, Matrix.dotProduct, Finset.mul_sum]
      _ = ∑ k, ∑ i, (w i - b i) * (A i k * d k) := Finset.sum_comm
      _ = ∑ k, (∑ i, A i k * (w i - b i)) * d k := by
          refine Finset.sum_congr rfl (fun k _ => ?_)
          rw [Finset.sum_mul]
          exact Finset.sum_congr rfl (fun i _ => by ring)
      _ = 0 := by
          refine Finset.sum_eq_zero (fun k _ => ?_)
          rw [horth k, zero_mul]
  have hexpand : residSq A b x
      = residSq A b v + 2 * (∑ i, (w i - b i) * (A *ᵥ d) i)
        + ∑ i, ((A *ᵥ d) i) ^ 2 := by
    unfold residSq
    rw [Finset.mul_sum, ← Finset.sum_add_distrib, ← Finset.sum_add_distrib]
    refine Finset.sum_congr rfl (fun i _ => ?_)
    rw [hAd i, ← hw]
    ring
  rw [hexpand, hcross, mul_zero, add_zero]

end NormalEquationsLemmas

/- ### The solver over `ℚ` -/

/-- Over `ℚ`, `solveLS` is the scaled Cramer vector with the actual inverse
of the Gram determinant. -/
lemma solveLS_eq_lsSol (A : Matrix (Fin 8) (Fin 8) ℚ) (b : Fin 8 → ℚ) :
    solveLS A b = lsSol A b (gramDet A)⁻¹ := by
  funext j
  show gramCramer A b j / gramDet A = _
  rw [div_eq_inv_mul]
  rfl

/-- Over `ℚ`, the least-squares solution of a system with an invertible
coefficient matrix is its exact solution. -/
lemma solveLS_of_exact {A B : Matrix (Fin 8) (Fin 8) ℚ} {b x0 : Fin 8 → ℚ}
    (hB : B * A = 1) (hsol : A *ᵥ x0 = b) : solveLS A b = x0 := by
  have hne : gramDet A ≠ 0 := gramDet_ne_zero hB one_ne_zero
  rw [solveLS_eq_lsSol]
  exact ls_unique (inv_mul_cancel₀ hne) hsol
    (fun u w h => mul_left_cancel₀ hne h)

/-- Over `ℚ`, `solveLS` minimizes the squared residual among all candidate
parameter vectors, provided the coefficient matrix has a one-sided
inverse. -/
lemma solveLS_min {A B : Matrix (Fin 8) (Fin 8) ℚ} (b : Fin 8 → ℚ)
    (hB : B * A = 1) (x : Fin 8 → ℚ) :
    residSq A b (solveLS A b) ≤ residSq A b x := by
  have hne : gramDet A ≠ 0 := gramDet_ne_zero hB one_ne_zero
  rw [solveLS_eq_lsSol, ls_decomp (inv_mul_cancel₀ hne) x]
  have hnn : 0 ≤ ∑ i,
      ((A *ᵥ (fun k => x k - lsSol A b (gramDet A)⁻¹ k)) i) ^ 2 :=
    Finset.sum_nonneg (fun i _ => sq_nonneg _)
  linarith

/- ### C9: the correspondence system and its least-squares solution -/

/-- C9: `sample_homography` builds, for each point pair
`p = pts1[i]`, `q = pts2[i]`, the row `[p.x, p.y, 1, 0, 0, 0, -p.x*q.x,
-p.y*q.x]` with target `q.x` and the row `[0, 0, 0, p.x, p.y, 1, -p.x*q.y,
-p.y*q.y]` with target `q.y` (rows interleaved, targets stacked in
`p_mat`), and returns as the flattened homography the least-squares
solution of the resulting 8×8 system: whenever the system's coefficient
matrix is invertible (the nondegeneracy the spec demands of the
correspondences), the returned vector minimizes `‖Ax - b‖²` over all `x`. -/
theorem sample_homography_least_squares (p1 p2 : Quad)
    (B : Matrix (Fin 8) (Fin 8) ℚ) (hB : B * aMat p1 p2 = 1) :
    (∀ i : Fin 4,
      aMat p1 p2 ⟨2 * i.val, by have := i.isLt; omega⟩
          = ![p1 i 0, p1 i 1, 1, 0, 0, 0, -(p1 i 0) * p2 i 0, -(p1 i 1) * p2 i 0] ∧
        aMat p1 p2 ⟨2 * i.val + 1, by have := i.isLt; omega⟩
          = ![0, 0, 0, p1 i 0, p1 i 1, 1, -(p1 i 0) * p2 i 1, -(p1 i 1) * p2 i 1] ∧
        pVec p2 ⟨2 * i.val, by have := i.isLt; omega⟩ = p2 i 0 ∧
        pVec p2 ⟨2 * i.val + 1, by have := i.isLt; omega⟩ = p2 i 1) ∧
    (∀ (shape : ℚ × ℚ) (cfg : Config) (r : Rand),
      samplePts shape cfg r = some (p1, p2) →
        sample_homography shape cfg r = some (solveLS (aMat p1 p2) (pVec p2))) ∧
    (∀ x : Fin 8 → ℚ,
      residSq (aMat p1 p2) (pVec p2) (solveLS (aMat p1 p2) (pVec p2))
        ≤ residSq (aMat p1 p2) (pVec p2) x) := by
  refine ⟨?_, ?_, ?_⟩
  · intro i
    fin_cases i <;> exact ⟨rfl, rfl, rfl, rfl⟩
  · intro shape cfg r hs
    unfold sample_homography
    rw [hs]
    rfl
  · exact fun x => solveLS_min (pVec p2) hB x

/-- The identity point configuration used as a concrete witness input. -/
def ptsIdW : Quad := ![![0, 0], ![1, 0], ![0, 1], ![1, 1]]

/-- An explicit inverse of the correspondence matrix of the identity
configuration. -/
def bIdW : Matrix (Fin 8) (Fin 8) ℚ :=
  Matrix.of
    ![![-1, -1, 1, 1, 0, 1, 0, -1],
      ![-1, 0, 0, 0, 1, 0, 0, 0],
      ![1, 0, 0, 0, 0, 0, 0, 0],
      ![0, -1, 0, 1, 0, 0, 0, 0],
      ![-1, -1, 1, 0, 1, 1, -1, 0],
      ![0, 1, 0, 0, 0, 0, 0, 0],
      ![0, -1, 0, 1, 0, 1, 0, -1],
      ![-1, 0, 1, 0, 1, 0, -1, 0]]

/-- Witness for C9 at the identity point configuration, whose
correspondence matrix is explicitly inverted by `bIdW`. -/
theorem sample_homography_least_squares_w :
    (∀ i : Fin 4,
      aMat ptsIdW ptsIdW ⟨2 * i.val, by have := i.isLt; omega⟩
          = ![ptsIdW i 0, ptsIdW i 1, 1, 0, 0, 0,
              -(ptsIdW i 0) * ptsIdW i 0, -(ptsIdW i 1) * ptsIdW i 0] ∧
        aMat ptsIdW ptsIdW ⟨2 * i.val + 1, by have := i.isLt; omega⟩
          = ![0, 0, 0, ptsIdW i 0, ptsIdW i 1, 1,
              -(ptsIdW i 0) * ptsIdW i 1, -(ptsIdW i 1) * ptsIdW i 1] ∧
        pVec ptsIdW ⟨2 * i.val, by have := i.isLt; omega⟩ = ptsIdW i 0 ∧
        pVec ptsIdW ⟨2 * i.val + 1, by have := i.isLt; omega⟩ = ptsIdW i 1) ∧
    (∀ (shape : ℚ × ℚ) (cfg : Config) (r : Rand),
      samplePts shape cfg r = some (ptsIdW, ptsIdW) →
        sample_homography shape cfg r
          = some (solveLS (aMat ptsIdW ptsIdW) (pVec ptsIdW))) ∧
    (∀ x : Fin 8 → ℚ,
      residSq (aMat ptsIdW ptsIdW) (pVec ptsIdW)
          (solveLS (aMat ptsIdW ptsIdW) (pVec ptsIdW))
        ≤ residSq (aMat ptsIdW ptsIdW) (pVec ptsIdW) x) :=
  sample_homography_least_squares ptsIdW ptsIdW bIdW
    (by with_unfolding_all decide)


lemma cons_val_five {α : Type} {m : ℕ} (x : α) (u : Fin (m + 5) → α) :
    vecCons x u 5 = vecHead (vecTail (vecTail (vecTail (vecTail u)))) := rfl

lemma cons_val_six {α : Type} {m : ℕ} (x : α) (u : Fin (m + 6) → α) :
    vecCons x u 6
      = vecHead (vecTail (vecTail (vecTail (vecTail (vecTail u))))) := rfl

lemma cons_val_seven {α : Type} {m : ℕ} (x : α) (u : Fin (m + 7) → α) :
    vecCons x u 7
      = vecHead (vecTail (vecTail (vecTail (vecTail (vecTail (vecTail u)))))) := rfl

/-- The homography that shrinks by one half and recenters: the exact
solution of the unperturbed correspondence system after rescaling to an
image of width `wdt` and height `hgt`. -/
def halfCrop (wdt hgt : ℚ) : FlatH := ![1/2, 0, wdt/4, 0, 1/2, hgt/4, 0, 0]

/-- An explicit symbolic inverse of the unperturbed correspondence matrix
for an image of width `s` and height `t` (verified by `lsInv_mul`). -/
def lsInv (s t : ℚ) : Matrix (Fin 8) (Fin 8) ℚ :=
  Matrix.of
    ![![-1/s, -3/(2*t), 0, 3/(2*t), 0, -3/(2*t), 1/s, 3/(2*t)],
      ![-3/(2*t), 0, 3/(2*t), 0, -1/(2*t), 0, 1/(2*t), 0],
      ![1, 0, 0, 0, 0, 0, 0, 0],
      ![0, -3/(2*s), 0, 1/(2*s), 0, -1/(2*s), 0, 3/(2*s)],
      ![-3/(2*s), -1/t, 3/(2*s), 1/t, -3/(2*s), 0, 3/(2*s), 0],
      ![0, 1, 0, 0, 0, 0, 0, 0],
      ![0, -2/(s*t), 0, 2/(s*t), 0, -2/(s*t), 0, 2/(s*t)],
      ![-2/(s*t), 0, 2/(s*t), 0, -2/(s*t), 0, 2/(s*t), 0]]

set_option maxHeartbeats 3000000 in
lemma lsInv_mul (s t : ℚ) (hs : s ≠ 0) (ht : t ≠ 0) :
    lsInv s t * aMat (rescalePt (t, s) pts1Init) (rescalePt (t, s) pts2Init) = 1 := by
  ext i j
  fin_cases i <;> fin_cases j <;>
    · simp +decide [lsInv, aMat, axRow, ayRow, rescalePt, pts1Init, pts2Init,
        Matrix.mul_apply, Fin.sum_univ_succ, Matrix.one_apply,
        Matrix.vecHead, Matrix.vecTail, cons_val_five, cons_val_six,
        cons_val_seven]
      try field_simp
      try ring

set_option maxHeartbeats 1000000 in
lemma halfCrop_solves (hgt wdt : ℚ) :
    aMat (rescalePt (hgt, wdt) pts1Init) (rescalePt (hgt, wdt) pts2Init)
      *ᵥ halfCrop wdt hgt = pVec (rescalePt (hgt, wdt) pts2Init) := by
  funext i
  fin_cases i <;>
    · simp [aMat, axRow, ayRow, rescalePt, pts1Init, pts2Init, halfCrop, pVec,
        Matrix.mulVec, Matrix.dotProduct, Fin.sum_univ_succ,
        Matrix.vecHead, Matrix.vecTail, cons_val_five, cons_val_six,
        cons_val_seven]
      ring

/-- C5: with perspective, scaling, rotation and translation all disabled,
`sample_homography` consumes no random draws (the result is the same for
every random input), and deterministically returns the solution of the
linear system mapping the unit-square corners to the half-size centered
square, both rescaled by the shape; that solution is exactly the half-crop
homography `[[1/2, 0, w/4], [0, 1/2, h/4], [0, 0, 1]]` in flattened form. -/
theorem sample_homography_no_perturbation (hgt wdt : ℚ)
    (hh : 0 < hgt) (hw : 0 < wdt) :
    (∀ r1 r2 : Rand, sample_homography (hgt, wdt) cfgOff r1
        = sample_homography (hgt, wdt) cfgOff r2) ∧
    (∀ r : Rand, sample_homography (hgt, wdt) cfgOff r
        = some (solveLS
            (aMat (rescalePt (hgt, wdt) pts1Init) (rescalePt (hgt, wdt) pts2Init))
            (pVec (rescalePt (hgt, wdt) pts2Init)))) ∧
    aMat (rescalePt (hgt, wdt) pts1Init) (rescalePt (hgt, wdt) pts2Init)
        *ᵥ halfCrop wdt hgt = pVec (rescalePt (hgt, wdt) pts2Init) ∧
    solveLS (aMat (rescalePt (hgt, wdt) pts1Init) (rescalePt (hgt, wdt) pts2Init))
        (pVec (rescalePt (hgt, wdt) pts2Init)) = halfCrop wdt hgt := by
  have h2 : ∀ r : Rand, sample_homography (hgt, wdt) cfgOff r
      = some (solveLS
          (aMat (rescalePt (hgt, wdt) pts1Init) (rescalePt (hgt, wdt) pts2Init))
          (pVec (rescalePt (hgt, wdt) pts2Init))) := fun r => rfl
  have h3 := halfCrop_solves hgt wdt
  refine ⟨fun r1 r2 => (h2 r1).trans (h2 r2).symm, h2, h3, ?_⟩
  exact solveLS_of_exact (lsInv_mul wdt hgt (ne_of_gt hw) (ne_of_gt hh)) h3

/-- Witness for C5 at the spec's end-to-end scenario shape `(480, 640)`. -/
theorem sample_homography_no_perturbation_w :
    (∀ r1 r2 : Rand, sample_homography ((480 : ℚ), 640) cfgOff r1
        = sample_homography ((480 : ℚ), 640) cfgOff r2) ∧
    (∀ r : Rand, sample_homography ((480 : ℚ), 640) cfgOff r
        = some (solveLS
            (aMat (rescalePt ((480 : ℚ), 640) pts1Init)
              (rescalePt ((480 : ℚ), 640) pts2Init))
            (pVec (rescalePt ((480 : ℚ), 640) pts2Init)))) ∧
    aMat (rescalePt ((480 : ℚ), 640) pts1Init)
        (rescalePt ((480 : ℚ), 640) pts2Init)
        *ᵥ halfCrop 640 480 = pVec (rescalePt ((480 : ℚ), 640) pts2Init) ∧
    solveLS (aMat (rescalePt ((480 : ℚ), 640) pts1Init)
        (rescalePt ((480 : ℚ), 640) pts2Init))
        (pVec (rescalePt ((480 : ℚ), 640) pts2Init)) = halfCrop 640 480 :=
  sample_homography_no_perturbation 480 640 (by norm_num) (by norm_num)

end SuperPoint

